import Mathlib

/-!
Verification of the LoadBalance MPI program (src/LoadBalance.cpp).

The program runs one master (rank 0) and N-1 slaves. Each slave sends the
master a count header followed by that many angle values; the master
concatenates the contributions in ascending rank order, repartitions the
combined vector into chunks of balancedSize = total / (N-1) each with the
last rank draining the remainder, scatters the chunks, the slaves map sin
over their chunk in place and send it back, and the master regathers the
results in ascending rank order.

The definitions below are a shallow embedding of the phases of main; line
numbers refer to src/LoadBalance.cpp. Element values are kept generic in a
type alpha and the per-element transform is an abstract function, so that
the protocol layer is independent of floating point, exactly as the spec
treats the transform as an injectable pure function.
-/

namespace LoadBalance

/-- Line 88: l_balancedSize = l_masterVec.size() / (l_worldSize - 1).
The divisor is the number of slave (worker) ranks, worldSize - 1; C++
integer division on nonnegative operands truncates, matching Nat division.
When the divisor is zero the C++ expression is a division by zero
(undefined behavior); masterChunks below guards that case with none. -/
def balancedSize (total workers : Nat) : Nat :=
  total / workers

/-- Lines 97-113, the scatter loop of the master. For each rank i from 1 to
worldSize-1 it clears the temp vector, pushes balancedSize elements of the
master vector (advancing the cursor l_count), and, when i is the final rank,
keeps pushing until the cursor reaches the end of the master vector. The
recursion consumes the not-yet-assigned suffix of the master vector: workers
counts the ranks still to serve, so the one-worker case is the final rank,
whose chunk is the whole remaining suffix. -/
def scatterLoop (b : Nat) : Nat → List α → List (List α)
  | 0, _ => []
  | 1, remaining => [remaining]
  | k + 2, remaining => remaining.take b :: scatterLoop b (k + 1) (remaining.drop b)

/-- The repartition-and-scatter phase of the master (lines 88-113): compute
balancedSize, then build one chunk per slave rank. none models the
division-by-zero undefined behavior of line 88 when worldSize = 1, i.e.
when there are zero workers. -/
def masterChunks (masterVec : List α) (workers : Nat) : Option (List (List α)) :=
  if workers = 0 then none
  else some (scatterLoop (balancedSize masterVec.length workers) workers masterVec)

/-- Lines 65-85 and 119-132, the two gather loops of the master: for each
rank in ascending order, receive a vector and push its elements one by one
onto the accumulated master vector. -/
def gatherLoop (acc : List α) : List (List α) → List α
  | [] => acc
  | c :: cs => gatherLoop (acc ++ c) cs

/-- Lines 167-174, the slave transform loop: replace each element of the
received chunk by f of it, in place, preserving order and length. In the
program f is sin. -/
def slaveTransform (f : α → α) (chunk : List α) : List α :=
  chunk.map f

/-- A protocol message: a count header followed by a flat payload of values,
exactly the pair of sends used everywhere in the program. -/
structure Msg (α : Type) where
  header : Nat
  payload : List α

/-- A message is internally consistent when its header equals the length of
its payload. -/
def consistent (m : Msg α) : Prop :=
  m.header = m.payload.length

/-- Lines 107-112: the master sends l_tmpSize = l_tmpVec.size() and then the
chunk itself. -/
def masterChunkMsg (chunk : List α) : Msg α :=
  ⟨chunk.length, chunk⟩

/-- Lines 143-154: a slave draws l_noAngles, sends it, builds its
contribution by pushing l_noAngles generated values onto an empty vector,
and sends the vector. gen abstracts the randomizer stream. -/
def slaveContribMsg (n : Nat) (gen : Nat → α) : Msg α :=
  ⟨n, (List.range n).map gen⟩

/-- std::vector::resize semantics: truncate to n elements, or pad at the
back with the default element d up to length n. -/
def vecResize (d : α) (v : List α) (n : Nat) : List α :=
  v.take n ++ List.replicate (n - v.length) d

/-- Lines 157-182, the whole slave receive-transform-send step: receive the
count header, resize the slave vector to it and receive that many values
into it (so the working vector always has exactly header-many elements),
transform in place, then send the same count header followed by the
transformed vector. d is the default element used by resize padding. -/
def slaveStep (d : α) (f : α → α) (m : Msg α) : Msg α :=
  ⟨m.header, slaveTransform f (vecResize d m.payload m.header)⟩

/-- One whole run of the coordinator as main sequences it, with one slave
per contribution: gather the contributions in rank order (lines 65-85),
repartition and scatter with workers = worldSize - 1 (lines 88-113), each
slave maps f over its chunk (lines 167-174), and gather the results in the
same rank order (lines 119-132). -/
def coordinatorRun (f : α → α) (contribs : List (List α)) : Option (List α) :=
  Option.map (fun chunks => gatherLoop [] (chunks.map (slaveTransform f)))
    (masterChunks (gatherLoop [] contribs) contribs.length)

/-- The Repartitioner of the spec, modelled from the words of the spec:
computeChunks(totalCount, workerCount) returns an ordered sequence of
(start, length) pairs, one per worker; base length is totalCount /
workerCount truncating; every worker except the last receives exactly
baseLength elements, consuming baseLength items from the front of the
remaining pool each time; the last worker receives baseLength +
(totalCount mod workerCount) elements. Kept separate from the embedding of
the source loop so that the two can be compared (claim C8). -/
def computeChunks (totalCount workerCount : Nat) : List (Nat × Nat) :=
  (List.range workerCount).map fun i =>
    (i * (totalCount / workerCount),
     if i = workerCount - 1
     then totalCount / workerCount + totalCount % workerCount
     else totalCount / workerCount)

/-! ### Helper lemmas -/

theorem gatherLoop_eq (acc : List α) (l : List (List α)) :
    gatherLoop acc l = acc ++ l.flatten := by
  induction l generalizing acc with
  | nil => simp [gatherLoop]
  | cons c cs ih => simp [gatherLoop, ih]

theorem scatterLoop_flatten (b : Nat) :
    ∀ (k : Nat) (l : List α), 1 ≤ k → (scatterLoop b k l).flatten = l := by
  intro k
  induction k with
  | zero => intro l h; omega
  | succ k ih =>
    intro l _
    match k with
    | 0 => simp [scatterLoop]
    | k + 1 =>
      have := ih (l.drop b) (by omega)
      simp only [scatterLoop, List.flatten_cons, this, List.take_append_drop]

theorem scatterLoop_length (b : Nat) :
    ∀ (k : Nat) (l : List α), (scatterLoop b k l).length = k := by
  intro k
  induction k with
  | zero => intro l; simp [scatterLoop]
  | succ k ih =>
    intro l
    match k with
    | 0 => simp [scatterLoop]
    | k + 1 => simp only [scatterLoop, List.length_cons, ih]

theorem scatterLoop_take_drop (b : Nat) :
    ∀ (k : Nat) (l : List α), 1 ≤ k →
      scatterLoop b k l =
        (List.range (k - 1)).map (fun i => (l.drop (i * b)).take b) ++
          [l.drop ((k - 1) * b)] := by
  intro k
  induction k with
  | zero => intro l h; omega
  | succ k ih =>
    intro l _
    match k with
    | 0 => simp [scatterLoop]
    | k + 1 =>
      have hrec := ih (l.drop b) (by omega)
      simp only [scatterLoop]
      rw [hrec, Nat.add_sub_cancel, Nat.add_sub_cancel, List.range_succ_eq_map,
        List.map_cons, List.map_map]
      simp only [Nat.zero_mul, List.drop_zero, List.cons_append, Function.comp]
      congr 1
      congr 1
      · apply List.map_congr_left
        intro i _
        simp only [Function.comp_apply]
        rw [List.drop_drop, Nat.succ_mul]
        congr 2
        omega
      · congr 1
        rw [List.drop_drop]
        congr 1
        ring

theorem scatterLoop_nil (b : Nat) :
    ∀ k : Nat, scatterLoop b k ([] : List α) = List.replicate k [] := by
  intro k
  induction k with
  | zero => simp [scatterLoop]
  | succ k ih =>
    match k with
    | 0 => simp [scatterLoop]
    | k + 1 =>
      simp only [scatterLoop, List.take_nil, List.drop_nil, ih, List.replicate_succ]

theorem range'_drop (s m n : Nat) :
    (List.range' s n).drop m = List.range' (s + m) (n - m) := by
  induction n generalizing s m with
  | zero => simp
  | succ n ih =>
    cases m with
    | zero => simp
    | succ m =>
      rw [List.range'_succ, List.drop_succ_cons, ih]
      congr 1 <;> omega

theorem range'_take (s m n : Nat) :
    (List.range' s n).take m = List.range' s (min m n) := by
  induction n generalizing s m with
  | zero => simp
  | succ n ih =>
    cases m with
    | zero => simp
    | succ m =>
      rw [List.range'_succ, List.take_succ_cons, ih, Nat.succ_min_succ,
        List.range'_succ]

theorem scatterLoop_map_length (b : Nat) :
    ∀ (k : Nat) (l : List α), 1 ≤ k → (k - 1) * b ≤ l.length →
      (scatterLoop b k l).map List.length =
        List.replicate (k - 1) b ++ [l.length - (k - 1) * b] := by
  intro k
  induction k with
  | zero => intro l h; omega
  | succ k ih =>
    intro l _ hb
    match k with
    | 0 => simp [scatterLoop]
    | k + 1 =>
      rw [Nat.add_sub_cancel] at hb
      have hsm : (k + 1) * b = k * b + b := Nat.succ_mul k b
      have hb2 : k * b ≤ (l.drop b).length := by
        rw [List.length_drop]; omega
      have ihh := ih (l.drop b) (by omega) (by rw [Nat.add_sub_cancel]; exact hb2)
      rw [Nat.add_sub_cancel]
      simp only [scatterLoop, List.map_cons, ihh, Nat.add_sub_cancel,
        List.length_take, List.length_drop, List.replicate_succ,
        List.cons_append]
      have hmin : b ⊓ l.length = b := by omega
      have harith : l.length - b - k * b = l.length - (k + 1) * b := by omega
      rw [hmin, harith]

theorem balanced_remainder (len k : Nat) (hk : 1 ≤ k) :
    (k - 1) * (len / k) ≤ len ∧
      len - (k - 1) * (len / k) = len / k + len % k := by
  have hdm := Nat.div_add_mod len k
  have hble : len / k ≤ k * (len / k) := Nat.le_mul_of_pos_left _ hk
  rw [Nat.sub_mul, Nat.one_mul]
  obtain ⟨B, hB⟩ : ∃ B, len / k = B := ⟨_, rfl⟩
  rw [hB] at hdm hble ⊢
  obtain ⟨K, hK⟩ : ∃ K, k * B = K := ⟨_, rfl⟩
  rw [hK] at hdm hble ⊢
  omega

theorem length_slaveTransform (f : α → α) :
    (List.length ∘ slaveTransform f) = (List.length : List α → Nat) := by
  funext c
  simp [slaveTransform]

/-! ### Claim theorems -/

/-- C1: for every totalCount and every workerCount of at least one, the
chunks produced by the repartition step are pairwise non-overlapping,
collectively exhaustive and ordered: concatenating them in order reproduces
the index range [0, totalCount), every element consumed exactly once. -/
theorem masterChunks_partition (total k : Nat) (hk : 1 ≤ k) :
    Option.map List.flatten (masterChunks (List.range total) k) =
      some (List.range total) := by
  rw [masterChunks, if_neg (by omega : k ≠ 0), Option.map_some']
  exact congrArg some (scatterLoop_flatten _ k _ hk)

theorem masterChunks_partition_witness :
    Option.map List.flatten (masterChunks (List.range 12) 5) =
      some (List.range 12) :=
  masterChunks_partition 12 5 (by decide)

/-- C5: the combined collection built by the gather loop of the master
equals the concatenation of the contributions of the slaves in ascending
rank order, each contribution kept in its internal order; since the master
receives from rank 1, then rank 2, and so on, the result is a pure function
of the contribution contents alone. -/
theorem gatherLoop_rank_order (contribs : List (List α)) :
    gatherLoop [] contribs = contribs.flatten := by
  rw [gatherLoop_eq, List.nil_append]

/-- C7: with a total of zero every chunk produced by the repartition step
is empty, for any worker count of at least one; and with total 5 and a
single worker, that worker receives one chunk holding the entire
collection. -/
theorem masterChunks_degenerate (k : Nat) (hk : 1 ≤ k) :
    masterChunks ([] : List Nat) k = some (List.replicate k []) ∧
      masterChunks (List.range 5) 1 = some [List.range 5] := by
  constructor
  · rw [masterChunks, if_neg (by omega : k ≠ 0)]
    exact congrArg some (scatterLoop_nil _ k)
  · rfl

theorem masterChunks_degenerate_witness :
    masterChunks ([] : List Nat) 2 = some (List.replicate 2 []) ∧
      masterChunks (List.range 5) 1 = some [List.range 5] :=
  masterChunks_degenerate 2 (by decide)

/-- C4 counterexample: with worldSize 1 there are zero workers, and the
repartition step of the master does not complete: line 88 divides the
total by worldSize - 1 = 0, which is undefined behavior in C++, modelled
here as none. -/
theorem masterChunks_no_workers :
    masterChunks ([] : List Nat) 0 = none := rfl

/-- C4 (amended): zero total contributions with at least one worker are
handled by definition, every chunk coming out empty; the worldSize 1 case
is excluded, since there the repartition step divides by zero. -/
theorem masterChunks_zero_total {α : Type} (k : Nat) (hk : 1 ≤ k) :
    masterChunks ([] : List α) k = some (List.replicate k []) := by
  rw [masterChunks, if_neg (by omega : k ≠ 0)]
  exact congrArg some (scatterLoop_nil _ k)

theorem masterChunks_zero_total_witness :
    masterChunks ([] : List Nat) 3 = some (List.replicate 3 []) :=
  masterChunks_zero_total 3 (by decide)

/-- C9: every message pair sent in the protocol is internally consistent:
the chunk message of the master, the contribution message of a slave and
the result message of a slave all carry a count header equal to the length
of the payload sent right after it. -/
theorem protocol_msgs_consistent {α : Type} (d : α) (f : α → α)
    (chunk : List α) (n : Nat) (gen : Nat → α) (m : Msg α) :
    consistent (masterChunkMsg chunk) ∧ consistent (slaveContribMsg n gen) ∧
      consistent (slaveStep d f m) := by
  refine ⟨rfl, by simp [consistent, slaveContribMsg], ?_⟩
  simp only [consistent, slaveStep, slaveTransform, vecResize,
    List.length_map, List.length_append, List.length_take,
    List.length_replicate]
  omega

/-- C10: the result message of a slave echoes back exactly the chunk-length
header it received from the master, with a payload of exactly that length;
in particular a zero-length chunk still produces a sent message, with
header 0 and empty payload. -/
theorem slaveStep_echoes_header {α : Type} (d : α) (f : α → α) (m : Msg α) :
    (slaveStep d f m).header = m.header ∧
      (slaveStep d f m).payload.length = m.header ∧
      slaveStep d f ⟨0, ([] : List α)⟩ = ⟨0, []⟩ := by
  refine ⟨rfl, ?_, ?_⟩
  · simp only [slaveStep, slaveTransform, vecResize, List.length_map,
      List.length_append, List.length_take, List.length_replicate]
    omega
  · simp [slaveStep, slaveTransform, vecResize]

/-- C2: for every collection and every workerCount of at least one, every
worker except the last receives exactly baseLength = totalCount /
workerCount elements (truncating integer division), and the last worker
receives baseLength + (totalCount mod workerCount) elements; the witness
below checks the instance totalCount = 17, workerCount = 4 with chunk
lengths [4, 4, 4, 5]. -/
theorem masterChunks_chunk_lengths {α : Type} (l : List α) (k : Nat)
    (hk : 1 ≤ k) :
    Option.map (fun chunks => chunks.map List.length) (masterChunks l k) =
      some (List.replicate (k - 1) (l.length / k) ++
        [l.length / k + l.length % k]) := by
  obtain ⟨hle, heq⟩ := balanced_remainder l.length k hk
  rw [masterChunks, if_neg (by omega : k ≠ 0), Option.map_some']
  congr 1
  have hb : (k - 1) * balancedSize l.length k ≤ l.length := hle
  rw [scatterLoop_map_length (balancedSize l.length k) k l hk hb]
  simp only [balancedSize]
  rw [heq]

theorem masterChunks_chunk_lengths_witness :
    Option.map (fun chunks => chunks.map List.length)
        (masterChunks (List.range 17) 4) = some [4, 4, 4, 5] :=
  (masterChunks_chunk_lengths (List.range 17) 4 (by decide)).trans (by decide)

/-- C3: element counts are conserved across the three phases: the sum of
the contribution lengths of the workers equals the length of the combined
collection of the coordinator, which equals the sum of the scattered chunk
lengths, which equals the length of the final result collection. -/
theorem run_count_conservation {α : Type} (f : α → α)
    (contribs : List (List α)) (h : 1 ≤ contribs.length) :
    (contribs.map List.length).sum = (gatherLoop [] contribs).length ∧
    Option.map (fun chunks => (chunks.map List.length).sum)
        (masterChunks (gatherLoop [] contribs) contribs.length) =
      some ((contribs.map List.length).sum) ∧
    Option.map List.length (coordinatorRun f contribs) =
      some ((contribs.map List.length).sum) := by
  have hk0 : contribs.length ≠ 0 := by omega
  have hlen : (gatherLoop ([] : List α) contribs).length =
      (contribs.map List.length).sum := by
    rw [gatherLoop_eq, List.nil_append, List.length_flatten]
  have hflat := scatterLoop_flatten
    (balancedSize (gatherLoop ([] : List α) contribs).length contribs.length)
    contribs.length (gatherLoop ([] : List α) contribs) h
  refine ⟨hlen.symm, ?_, ?_⟩
  · rw [masterChunks, if_neg hk0, Option.map_some']
    congr 1
    rw [← List.length_flatten, hflat, hlen]
  · rw [coordinatorRun, masterChunks, if_neg hk0, Option.map_some',
      Option.map_some']
    congr 1
    rw [gatherLoop_eq, List.nil_append, List.length_flatten, List.map_map,
      length_slaveTransform, ← List.length_flatten, hflat, hlen]

theorem run_count_conservation_witness :
    (List.map List.length [[1, 2], [3, 4, 5]]).sum =
        (gatherLoop [] [[1, 2], [3, 4, 5]]).length ∧
      Option.map (fun chunks => (chunks.map List.length).sum)
          (masterChunks (gatherLoop [] [[1, 2], [3, 4, 5]]) 2) =
        some ((List.map List.length [[1, 2], [3, 4, 5]]).sum) ∧
      Option.map List.length (coordinatorRun Nat.succ [[1, 2], [3, 4, 5]]) =
        some ((List.map List.length [[1, 2], [3, 4, 5]]).sum) :=
  run_count_conservation Nat.succ [[1, 2], [3, 4, 5]] (by decide)

/-- C6: each worker applies the transform element-wise to its received
chunk, producing a sequence of equal length in the same order (the mapped
chunks have the same lengths as the chunks themselves), and end to end the
final result collection equals the element-wise transform of the combined
collection in the same concatenation order; instantiating f with the sine
function gives the sine claim of the spec. -/
theorem run_transform_fidelity {α : Type} (f : α → α)
    (contribs : List (List α)) (h : 1 ≤ contribs.length) :
    Option.map (fun chunks => (chunks.map (slaveTransform f)).map List.length)
        (masterChunks (gatherLoop [] contribs) contribs.length) =
      Option.map (fun chunks => chunks.map List.length)
        (masterChunks (gatherLoop [] contribs) contribs.length) ∧
    coordinatorRun f contribs = some ((gatherLoop [] contribs).map f) := by
  have hk0 : contribs.length ≠ 0 := by omega
  have hflat := scatterLoop_flatten
    (balancedSize (gatherLoop ([] : List α) contribs).length contribs.length)
    contribs.length (gatherLoop ([] : List α) contribs) h
  have hst : slaveTransform f = (List.map f : List α → List α) := rfl
  constructor
  · rw [masterChunks, if_neg hk0, Option.map_some', Option.map_some']
    congr 1
    rw [List.map_map, length_slaveTransform]
  · rw [coordinatorRun, masterChunks, if_neg hk0, Option.map_some']
    congr 1
    conv_rhs => rw [← hflat]
    rw [gatherLoop_eq [] ((scatterLoop
        (balancedSize (gatherLoop ([] : List α) contribs).length
          contribs.length) contribs.length
        (gatherLoop ([] : List α) contribs)).map (slaveTransform f)),
      List.nil_append, hst, ← List.map_flatten]

theorem run_transform_fidelity_witness :
    Option.map
        (fun chunks => (chunks.map (slaveTransform Nat.succ)).map List.length)
        (masterChunks (gatherLoop [] [[0, 1], [2]]) 2) =
      Option.map (fun chunks => chunks.map List.length)
        (masterChunks (gatherLoop [] [[0, 1], [2]]) 2) ∧
      coordinatorRun Nat.succ [[0, 1], [2]] =
        some ((gatherLoop [] [[0, 1], [2]]).map Nat.succ) :=
  run_transform_fidelity Nat.succ [[0, 1], [2]] (by decide)

/-- C8: the loop-based scatter of the implementation produces, for every
total and every workerCount of at least one, exactly the chunk lengths and
boundaries of the closed-form Repartitioner of the spec: chunk i is the
contiguous index range starting at the start offset of computeChunks with
its stated length. -/
theorem scatter_refines_repartitioner (total k : Nat) (hk : 1 ≤ k) :
    masterChunks (List.range total) k =
      some ((computeChunks total k).map fun p => List.range' p.1 p.2) := by
  have hk0 : k ≠ 0 := by omega
  obtain ⟨hle, heq⟩ := balanced_remainder total k hk
  have hkb : k * (total / k) ≤ total := by
    rw [Nat.mul_comm]; exact Nat.div_mul_le_self total k
  rw [masterChunks, if_neg hk0]
  congr 1
  rw [scatterLoop_take_drop _ k _ hk]
  simp only [balancedSize, List.length_range, computeChunks, List.map_map]
  have hsplit : List.range k = List.range (k - 1) ++ [k - 1] := by
    conv_lhs => rw [show k = (k - 1) + 1 by omega]
    exact List.range_succ (k - 1)
  rw [hsplit, List.map_append]
  congr 1
  · apply List.map_congr_left
    intro i hi
    rw [List.mem_range] at hi
    simp only [Function.comp_apply]
    rw [if_neg (by omega : ¬ i = k - 1)]
    have h1 : (i + 1) * (total / k) ≤ k * (total / k) :=
      Nat.mul_le_mul (by omega) (Nat.le_refl _)
    have h2 : (i + 1) * (total / k) ≤ total := le_trans h1 hkb
    have h3 : i * (total / k) + total / k ≤ total := by
      rw [← Nat.succ_mul]; exact h2
    have h4 : total / k ≤ total - i * (total / k) :=
      Nat.le_sub_of_add_le (by rw [Nat.add_comm]; exact h3)
    rw [List.range_eq_range', range'_drop, range'_take, Nat.zero_add,
      Nat.min_eq_left h4]
  · simp only [List.map_cons, List.map_nil, Function.comp_apply]
    rw [if_pos trivial, List.range_eq_range', range'_drop, Nat.zero_add, heq]

theorem scatter_refines_repartitioner_witness :
    masterChunks (List.range 9) 4 =
      some ((computeChunks 9 4).map fun p => List.range' p.1 p.2) :=
  scatter_refines_repartitioner 9 4 (by decide)

end LoadBalance
